import Mathlib

/-!
Shallow embedding of the `tk` ticket tracker (Rust sources `src/types.rs`,
`src/storage.rs`, `src/id.rs`, `src/main.rs`) and verification of the
specification claims about it.

Modelling conventions:
* Rust `String` / `&str` values are Lean `String`s; the byte-level string
  operations of the source (`trim`, `find`, slicing, `lines`) are embedded as
  executable functions over `List Char` (character indices coincide with the
  source's byte indices at every slicing boundary the code uses, because the
  delimiters involved are ASCII).  Whitespace is `Char.isWhitespace`
  (space, tab, CR, LF), the whitespace the source's documents contain.
* `chrono` timestamps are opaque and totally ordered: they are modelled as
  `Nat`; `Utc::now()` becomes an explicit `now` parameter.
* `serde_yaml` is an external library, not part of this repository: the
  frontmatter codec is passed to `parse_ticket` / `serialize_ticket` as a
  pair of function parameters, exactly at the call boundary the source uses.
* Rust `u32` parsing/arithmetic is `Nat` with an explicit bound `2 ^ 32`
  (`u32::from_str` rejects overflowing numerals; `max_num + 1` wraps in
  release builds, hence the explicit `% 2 ^ 32`).
* The fixed-count random retry loop of `id::generate` takes the successive
  SHA-256 digests as an explicit oracle `draws : Nat → List Char`; the two
  nested loops (hash lengths 4..=8, 100 attempts each) are flattened into
  attempt indices `0 ≤ i < 500` with hash length `4 + i / 100`.
* Recursive graph walks (`dfs_cycles`, `print_dep_tree`, `build_tree_json`)
  are embedded with an explicit fuel parameter; `find_cycles` supplies fuel
  that dominates the number of nodes ever visited, so the embedded functions
  agree with the source wherever the source terminates.
-/

namespace Tk

/-! ## Character-list string primitives (embedding Rust `&str` operations) -/

/-- Embedding of Rust `str::trim_start`: drop leading whitespace. -/
def trimL (l : List Char) : List Char := l.dropWhile Char.isWhitespace

/-- Embedding of Rust `str::trim_end`: drop trailing whitespace. -/
def trimR (l : List Char) : List Char := l.rdropWhile Char.isWhitespace

/-- Embedding of Rust `str::trim`: drop whitespace at both ends. -/
def trimC (l : List Char) : List Char := trimL (trimR l)

/-- Embedding of Rust `str::find(pat)`: index of the first occurrence of
`pat` as a contiguous sublist of `l`. -/
def findSubstr (l pat : List Char) : Option Nat :=
  if pat.isPrefixOf l then some 0
  else
    match l with
    | [] => none
    | _ :: t => (findSubstr t pat).map (· + 1)

/-- Split a character list at newline characters (every piece kept,
including a final empty piece for a trailing newline). -/
def splitNl : List Char → List (List Char)
  | [] => [[]]
  | c :: t =>
    if c = '\n' then [] :: splitNl t
    else
      match splitNl t with
      | [] => [[c]]
      | h :: r => (c :: h) :: r

/-- Drop a single trailing carriage return, as Rust `str::lines` does per line. -/
def stripCr (l : List Char) : List Char :=
  if l.getLast? = some '\r' then l.dropLast else l

/-- Embedding of Rust `str::lines`: split at LF, strip one trailing CR per
line, and do not yield a final empty line for a trailing newline. -/
def rustLines (l : List Char) : List (List Char) :=
  if l = [] then []
  else
    let ps := splitNl l
    (if ps.getLast? = some [] then ps.dropLast else ps).map stripCr

/-! ## Data model (`src/types.rs`) -/

/-- Ticket status (`types.rs`): the two-state enum of the source. -/
inductive Status where
  | Open
  | Closed
deriving DecidableEq

/-- Ticket type (`types.rs`), aligned with conventional commits. -/
inductive TicketType where
  | Feat
  | Fix
  | Chore
  | Docs
  | Refactor
  | Test
deriving DecidableEq

/-- YAML frontmatter of a ticket file (`types.rs::Frontmatter`).
Timestamps are modelled as `Nat`. -/
structure Frontmatter where
  id : String
  status : Status
  deps : List String
  created : Nat
  updated : Option Nat
  closed : Option Nat
  ticket_type : TicketType
  priority : Nat
  assignee : Option String
  parent : Option String
  tags : List String
deriving DecidableEq

/-- A complete ticket: frontmatter plus extracted title and body. -/
structure Ticket where
  meta : Frontmatter
  title : String
  body : String
deriving DecidableEq

/-- `Ticket::id` (`types.rs`). -/
def Ticket.id (t : Ticket) : String := t.meta.id

/-- `Ticket::is_open` (`types.rs`): status is `Open`. -/
def Ticket.is_open (t : Ticket) : Bool := t.meta.status = Status.Open

/-- `Ticket::is_blocked_by` (`types.rs`): some dep id resolves (first match
by exact id) to a ticket in `tickets` that is still open. -/
def Ticket.is_blocked_by (t : Ticket) (tickets : List Ticket) : Bool :=
  t.meta.deps.any fun d =>
    match tickets.find? (fun u => u.id = d) with
    | some dep => dep.is_open
    | none => false

/-! ## Record codec (`src/storage.rs`) -/

/-- `Storage::extract_title` inner loop (`storage.rs`): scan the lines of
`body`; at the first line whose trimmed form starts with a heading marker,
return the trimmed heading text and everything after that line with leading
newlines stripped; stop at the first non-blank non-heading line. -/
def extractTitleGo (body : List Char) : List (List Char) → Option (List Char × List Char)
  | [] => none
  | line :: rest =>
    let trimmed := trimC line
    if ("# ".data).isPrefixOf trimmed then
      match findSubstr body line with
      | some pos =>
        some (trimC (trimmed.drop 2), (body.drop (pos + line.length)).dropWhile (· = '\n'))
      | none => extractTitleGo body rest
    else if trimmed ≠ [] then none
    else extractTitleGo body rest

/-- `Storage::extract_title` (`storage.rs`): first heading line becomes the
title, defaulting to "Untitled" with the body unchanged. -/
def extract_title (body : List Char) : List Char × List Char :=
  match extractTitleGo body (rustLines body) with
  | some r => r
  | none => ("Untitled".data, body)

/-- `Storage::parse_ticket` (`storage.rs`): trim the document, require the
frontmatter delimiters, decode the YAML header via the `yamlDec` collaborator,
then extract the title from the trimmed body. -/
def parse_ticket (yamlDec : List Char → Option Frontmatter) (content : List Char) :
    Option Ticket :=
  let c := trimC content
  if ("---".data).isPrefixOf c then
    let rest := c.drop 3
    match findSubstr rest ("\n---".data) with
    | none => none
    | some e =>
      let yamlStr := trimC (rest.take e)
      let bodyStart := e + 4
      let body := if bodyStart < rest.length then trimC (rest.drop bodyStart) else []
      match yamlDec yamlStr with
      | none => none
      | some meta =>
        let tb := extract_title body
        some ⟨meta, String.mk tb.1, String.mk tb.2⟩
  else none

/-- `Storage::serialize_ticket` (`storage.rs`): frontmatter block, blank
line, heading line, then the body (if nonempty) preceded by a blank line and
ending in exactly one newline. -/
def serialize_ticket (yamlEnc : Frontmatter → List Char) (t : Ticket) : List Char :=
  let yaml := yamlEnc t.meta
  let content := "---\n".data ++ yaml ++ "---\n\n# ".data ++ t.title.data ++ ['\n']
  if t.body.data ≠ [] then
    content ++ ['\n'] ++ t.body.data ++
      (if t.body.data.getLast? = some '\n' then [] else ['\n'])
  else content

/-- `Storage::find_by_prefix` result: not found, a unique hit, or an
ambiguity error carrying the number of matches it names. -/
inductive FindResult where
  | notFound
  | found (t : Ticket)
  | ambiguous (count : Nat)
deriving DecidableEq

/-- `Storage::find_by_prefix` (`storage.rs`): an exact id match wins
immediately; otherwise collect the tickets whose id starts with the query;
zero matches is not-found, one is a hit, more is an ambiguity error naming
the match count. -/
def find_by_prefix (tickets : List Ticket) (q : String) : FindResult :=
  match tickets.find? (fun t => t.id = q) with
  | some t => FindResult.found t
  | none =>
    let ms := tickets.filter fun t => (q.data).isPrefixOf t.id.data
    match ms with
    | [] => FindResult.notFound
    | [t] => FindResult.found t
    | _ => FindResult.ambiguous ms.length

/-! ## Identifier generator (`src/id.rs`) -/

/-- Embedding of Rust `u32::from_str`: an optional leading plus sign, then
one or more decimal digits denoting a value below `2 ^ 32`. -/
def parseU32 (s : List Char) : Option Nat :=
  let digits :=
    match s with
    | '+' :: r => r
    | _ => s
  if digits = [] then none
  else if digits.all Char.isDigit then
    let v := digits.foldl (fun a c => a * 10 + (c.toNat - 48)) 0
    if v < 2 ^ 32 then some v else none
  else none

/-- The candidate child numbers of `id::generate_child`: for each existing
id of the form `parent.suffix` with a dot-free suffix, the suffix parsed as
`u32`. -/
def childNums (parent : String) (existing : List String) : List Nat :=
  existing.filterMap fun i =>
    if (parent.data ++ ['.']).isPrefixOf i.data then
      let suffix := i.data.drop (parent.data.length + 1)
      if suffix.contains '.' then none else parseU32 suffix
    else none

/-- The maximum existing child number, defaulting to 0 (`.max().unwrap_or(0)`). -/
def childMax (parent : String) (existing : List String) : Nat :=
  (childNums parent existing).foldr Nat.max 0

/-- `id::generate_child` (`id.rs`): append `.<max + 1>` to the parent id.
The successor is `u32` arithmetic, hence the `% 2 ^ 32` (release-build
wrapping; a debug build would abort instead of wrapping). -/
def generate_child (parent : String) (existing : List String) : String :=
  String.mk (parent.data ++ '.' :: (toString ((childMax parent existing + 1) % 2 ^ 32)).data)

/-- One candidate of `id::generate` (`id.rs`): the prefix `tk-` plus the
first `4 + i / 100` characters of the `i`-th hex digest. -/
def mkCand (draws : Nat → List Char) (i : Nat) : String :=
  String.mk ("tk-".data ++ (draws i).take (4 + i / 100))

/-- The retry loop of `id::generate` at attempt `i` with `rem` attempts
remaining: return the first candidate not present in `existing`; once the
attempts are exhausted fall back to an unchecked 16-hex-character id drawn
from the next digest. -/
def genLoop (existing : List String) (draws : Nat → List Char) (i : Nat) : Nat → String
  | 0 => String.mk ("tk-".data ++ (draws 500).take 16)
  | Nat.succ rem =>
    let cand := mkCand draws i
    if existing.contains cand then genLoop existing draws (i + 1) rem else cand

/-- `id::generate` (`id.rs`): 500 collision-checked attempts (5 hash
lengths of 100 draws each), then the unchecked fallback. -/
def generate (existing : List String) (draws : Nat → List Char) : String :=
  genLoop existing draws 0 500

/-! ## Commands (`src/main.rs`) -/

/-- Stable insertion of a ticket into a priority-sorted list: the inserted
element goes before the first strictly larger priority, after equal ones.
This together with `sortByPriority` models Rust's stable `sort_by_key`
(a stable sort's output is uniquely determined by key order and input
order, so any stable sorting algorithm gives the same list). -/
def insertByPriority (x : Ticket) : List Ticket → List Ticket
  | [] => [x]
  | y :: ys =>
    if x.meta.priority ≤ y.meta.priority then x :: y :: ys
    else y :: insertByPriority x ys

/-- Stable sort by ticket priority, modelling `sort_by_key` in `cmd_ready`. -/
def sortByPriority : List Ticket → List Ticket
  | [] => []
  | x :: xs => insertByPriority x (sortByPriority xs)

/-- The tag filter of the list commands: either no tags requested or every
requested tag present on the ticket. -/
def tagsPass (tagsFilter : List String) (t : Ticket) : Bool :=
  tagsFilter.isEmpty || tagsFilter.all fun tg => t.meta.tags.contains tg

/-- `cmd_ready` (`main.rs`): open, unblocked tickets passing the tag
filter, sorted (stably) by priority alone. -/
def cmd_ready (tickets : List Ticket) (tagsFilter : List String) : List Ticket :=
  sortByPriority
    ((tickets.filter fun t => t.is_open && !(t.is_blocked_by tickets)).filter
      (tagsPass tagsFilter))

/-- `cmd_dep` (`main.rs`): resolve both arguments by prefix, reject a
duplicate dependency, append the dep id and touch the ticket.  Failures
(either lookup failing, or the duplicate bail) are `none`. -/
def cmd_dep (tickets : List Ticket) (idArg depArg : String) (now : Nat) : Option Ticket :=
  match find_by_prefix tickets idArg with
  | FindResult.found t =>
    match find_by_prefix tickets depArg with
    | FindResult.found dep =>
      if t.meta.deps.contains dep.id then none
      else
        let m := t.meta
        some { t with meta := { m with deps := m.deps ++ [dep.id], updated := some now } }
    | _ => none
  | _ => none

/-- `cmd_edit` (`main.rs`): replace title and body from the (trimmed) input;
bail on empty input or on a missing heading.  The frontmatter — including
the `updated` timestamp — is left untouched by the source. -/
def cmd_edit (t : Ticket) (input : String) : Option Ticket :=
  let inp := trimC input.data
  if inp = [] then none
  else
    let tb := extract_title inp
    if tb.1 = "Untitled".data && !(("# ".data).isPrefixOf inp) then none
    else some { t with title := String.mk tb.1, body := String.mk tb.2 }

/-- `cmd_status` / `cmd_start` / `cmd_reopen` core (`main.rs`): set the
status and touch. -/
def cmd_status (t : Ticket) (newStatus : Status) (now : Nat) : Ticket :=
  let m := t.meta
  { t with meta := { m with status := newStatus, updated := some now } }

/-- `cmd_close` core (`main.rs`): set status `Closed`, stamp `closed`, touch. -/
def cmd_close (t : Ticket) (now : Nat) : Ticket :=
  let m := t.meta
  { t with meta := { m with status := Status.Closed, closed := some now, updated := some now } }

/-! ## Cycle detection (`main.rs::find_cycles` / `dfs_cycles`) -/

/-- State of the cycle-detection DFS: the visited set, the recursion-stack
set, the current path, and the cycles collected so far. -/
structure DfsSt where
  visited : List String
  recStack : List String
  path : List String
  cycles : List (List String)
deriving DecidableEq

/-- Set-like insertion for the `HashSet`s of the DFS. -/
def insertStr (s : String) (l : List String) : List String :=
  if l.contains s then l else s :: l

/-- Set-like removal for the `HashSet`s of the DFS. -/
def removeStr (s : String) (l : List String) : List String :=
  l.filter fun x => x ≠ s

/-- `HashMap` lookup of a ticket by id (ids are unique in any corpus the
store produces, so first-match lookup agrees with the hash map). -/
def lookupTicket (tickets : List Ticket) (nid : String) : Option Ticket :=
  tickets.find? fun t => t.id = nid

/-- `dfs_cycles` (`main.rs`): mark the node visited and on the stack, push
it on the path, then fold the dep loop over the node's deps (an unvisited
dep is expanded recursively; a dep on the recursion stack closes a cycle,
the path slice from its first occurrence; a visited dep off the stack is
skipped), finally pop the path and leave the stack.  `fuel` bounds the
recursion depth; `find_cycles` supplies enough of it. -/
def dfs_cycles : Nat → List Ticket → String → DfsSt → DfsSt
  | 0, _, _, st => st
  | Nat.succ f, tickets, nid, st =>
    let st1 : DfsSt :=
      ⟨insertStr nid st.visited, insertStr nid st.recStack, st.path ++ [nid], st.cycles⟩
    let st2 :=
      match lookupTicket tickets nid with
      | some t =>
        t.meta.deps.foldl
          (fun (acc : DfsSt) (d : String) =>
            if acc.visited.contains d then
              if acc.recStack.contains d then
                match acc.path.indexOf? d with
                | some start =>
                  ⟨acc.visited, acc.recStack, acc.path, acc.cycles ++ [acc.path.drop start]⟩
                | none => acc
              else acc
            else dfs_cycles f tickets d acc)
          st1
      | none => st1
    ⟨st2.visited, removeStr nid st2.recStack, st2.path.dropLast, st2.cycles⟩

/-- The per-dependency body of the dep loop of `dfs_cycles`, as a named
function (definitionally equal to the fold body above). -/
def depStep (fuel : Nat) (tickets : List Ticket) (acc : DfsSt) (d : String) : DfsSt :=
  if acc.visited.contains d then
    if acc.recStack.contains d then
      match acc.path.indexOf? d with
      | some start => ⟨acc.visited, acc.recStack, acc.path, acc.cycles ++ [acc.path.drop start]⟩
      | none => acc
    else acc
  else dfs_cycles fuel tickets d acc

/-- `find_cycles` (`main.rs`): run the DFS from every not-yet-visited
ticket, accumulating cycles.  The fuel dominates the number of ids the DFS
can ever newly visit, so the embedded DFS never runs dry. -/
def find_cycles (tickets : List Ticket) : List (List String) :=
  let fuel := tickets.length + (tickets.map fun t => t.meta.deps.length).sum + 1
  (tickets.foldl
      (fun (st : DfsSt) (t : Ticket) =>
        if st.visited.contains t.id then st else dfs_cycles fuel tickets t.id st)
      ⟨[], [], [], []⟩).cycles

/-! ## Dependency tree view (`main.rs::print_dep_tree` / `build_tree_json`) -/

/-- The resolved, status-filtered deps a tree node recurses into: each dep
id resolved against the loaded tickets (unresolved ids skipped), closed
tickets dropped unless `full` is set. -/
def resolvedDeps (t : Ticket) (all : List Ticket) (full : Bool) : List Ticket :=
  (t.meta.deps.filterMap fun d => lookupTicket all d).filter
    fun u => full || u.is_open

/-- A rank certificate for acyclicity of the loaded dependency graph: every
dep edge of `u` that resolves within `all` goes to a strictly smaller rank.
A finite dependency graph is acyclic exactly when such a rank exists. -/
def depsRankOk (rnk : String → Nat) (all : List Ticket) (u : Ticket) : Bool :=
  u.meta.deps.all fun d =>
    match lookupTicket all d with
    | some v => decide (rnk v.id < rnk u.id)
    | none => true

/-- A node of the JSON dependency tree built by `build_tree_json`. -/
inductive TreeNode where
  | node (tid title : String) (status : Status) (deps : List TreeNode)

mutual

/-- `build_tree_json` (`main.rs`) with explicit recursion fuel: `none`
means the fuel ran out (the source recurses without any cycle guard). -/
def build_tree_json (fuel : Nat) (t : Ticket) (all : List Ticket) (full : Bool) :
    Option TreeNode :=
  match fuel with
  | 0 => none
  | Nat.succ f =>
    match buildForest f (resolvedDeps t all full) all full with
    | some ns => some (TreeNode.node t.id t.title t.meta.status ns)
    | none => none
termination_by (fuel, 0)

/-- The child list of `build_tree_json`, built in dep order. -/
def buildForest (fuel : Nat) (ds : List Ticket) (all : List Ticket) (full : Bool) :
    Option (List TreeNode) :=
  match ds with
  | [] => some []
  | d :: rest =>
    match build_tree_json fuel d all full with
    | some n =>
      match buildForest fuel rest all full with
      | some ns => some (n :: ns)
      | none => none
    | none => none
termination_by (fuel, 1 + ds.length)

end

mutual

/-- `print_dep_tree` (`main.rs`) with explicit recursion fuel, producing
the printed lines; `none` means the fuel ran out. -/
def print_dep_tree (fuel : Nat) (t : Ticket) (all : List Ticket) (pre : String)
    (full : Bool) : Option (List String) :=
  match fuel with
  | 0 => none
  | Nat.succ f =>
    let ds := resolvedDeps t all full
    printLoop f ds all pre full ds.length 0
termination_by (fuel, 0)

/-- The enumerated dep loop of `print_dep_tree`: one connector line per
dep, followed by that dep's subtree with an extended prefix. -/
def printLoop (fuel : Nat) (ds : List Ticket) (all : List Ticket) (pre : String)
    (full : Bool) (total i : Nat) : Option (List String) :=
  match ds with
  | [] => some []
  | d :: rest =>
    let isLast := i = total - 1
    let connector := if isLast then "└── " else "├── "
    let marker := if d.is_open then " " else "x"
    let line := pre ++ connector ++ "[" ++ marker ++ "] " ++ d.id ++ " - " ++ d.title
    let newPre := pre ++ (if isLast then " " else "│") ++ "   "
    match print_dep_tree fuel d all newPre full with
    | some sub =>
      match printLoop fuel rest all pre full total (i + 1) with
      | some more => some (line :: sub ++ more)
      | none => none
    | none => none
termination_by (fuel, 1 + ds.length)

end

/-! ## Concrete fixtures used by witnesses and counterexamples -/

/-- Build a ticket with the given id, deps, status, priority and creation
time (title equal to the id, empty body, remaining fields defaulted). -/
def mkTicket (i : String) (deps : List String) (st : Status) (pr cr : Nat) : Ticket :=
  ⟨⟨i, st, deps, cr, none, none, TicketType.Feat, pr, none, none, []⟩, i, ""⟩

/-- Cycle fixture: `tk-a` depends on `tk-b` depends on `tk-c` depends on `tk-a`. -/
def exA : Ticket := mkTicket "tk-a" ["tk-b"] Status.Open 2 0

def exB : Ticket := mkTicket "tk-b" ["tk-c"] Status.Open 2 0

def exC : Ticket := mkTicket "tk-c" ["tk-a"] Status.Open 2 0

/-- Ready-sort fixture: two open tickets with equal priority, the first
created later than the second. -/
def exX : Ticket := mkTicket "tk-x" [] Status.Open 2 1

def exY : Ticket := mkTicket "tk-y" [] Status.Open 2 0

/-- Self-dependency fixture for the dep-add command. -/
def exSelf : Ticket := mkTicket "tk-a1b2" [] Status.Open 2 0

/-- The ticket `cmd_dep exSelf tk-a1b2 tk-a1b2` saves: its own id in `deps`. -/
def exSelfAfter : Ticket :=
  { exSelf with meta := { exSelf.meta with deps := ["tk-a1b2"], updated := some 5 } }

/-- Edit fixture. -/
def exEdit : Ticket := mkTicket "tk-e" [] Status.Open 2 0

/-- The ticket `cmd_edit exEdit "# New title"` saves: frontmatter untouched. -/
def exEditAfter : Ticket := { exEdit with title := "New title", body := "" }

/-- Blocking fixture: `exBlk` depends on the open ticket `exDep`. -/
def exBlk : Ticket := mkTicket "tk-blk" ["tk-d"] Status.Open 2 0

def exDep : Ticket := mkTicket "tk-d" [] Status.Open 2 0

/-- Prefix-resolution fixture from the specification's example. -/
def exP1 : Ticket := mkTicket "tk-ab12" [] Status.Open 2 0

def exP2 : Ticket := mkTicket "tk-ab99" [] Status.Open 2 0

/-- Id-generation fixture: every candidate the constant digest oracle can
produce, including the unchecked fallback id. -/
def exC8 : List String :=
  ["tk-aaaa", "tk-aaaaa", "tk-aaaaaa", "tk-aaaaaaa", "tk-aaaaaaaa", "tk-aaaaaaaaaaaaaaaa"]

/-- A digest oracle that always returns the same hex digest. -/
def exDraws : Nat → List Char := fun _ => List.replicate 64 'a'

/-- Tree fixture: `tk-pa` depends on `tk-pb`, which has no deps. -/
def exTreeA : Ticket := mkTicket "tk-pa" ["tk-pb"] Status.Open 2 0

def exTreeB : Ticket := mkTicket "tk-pb" [] Status.Open 2 0

/-- A rank certificate for the acyclic tree fixture. -/
def exRank : String → Nat := fun s => if s = "tk-pa" then 1 else 0

/-- Witness frontmatter for the round-trip claim. -/
def wMeta : Frontmatter :=
  ⟨"tk-a", Status.Open, [], 0, none, none, TicketType.Feat, 2, none, none, []⟩

/-- Witness ticket for the round-trip claim. -/
def wTicket : Ticket := ⟨wMeta, "Hello", "Body text"⟩

/-- Witness YAML encoder (a concrete stand-in for the external
`serde_yaml::to_string` collaborator on `wMeta`). -/
def wEnc (_ : Frontmatter) : List Char := "id: tk-a\n".data

/-- Witness YAML decoder inverting `wEnc` on `wMeta`. -/
def wDec (s : List Char) : Option Frontmatter :=
  if s = "id: tk-a".data then some wMeta else none

/-! ## General helper lemmas -/

theorem id_inj_of_nodup {l : List Ticket} (h : (l.map Ticket.id).Nodup)
    {a b : Ticket} (ha : a ∈ l) (hb : b ∈ l) (hab : a.id = b.id) : a = b := by
  induction l with
  | nil => cases ha
  | cons x xs ih =>
    rw [List.map_cons, List.nodup_cons] at h
    rcases List.mem_cons.mp ha with rfl | ha'
    · rcases List.mem_cons.mp hb with rfl | hb'
      · rfl
      · exact absurd (hab ▸ List.mem_map_of_mem Ticket.id hb') h.1
    · rcases List.mem_cons.mp hb with rfl | hb'
      · exact absurd (hab ▸ List.mem_map_of_mem Ticket.id ha') h.1
      · exact ih h.2 ha' hb'

/-! ## Claim C3: is_blocked_by characterisation -/

/-- C3: for every ticket `t` and ticket set `all` (with the store's unique
ids), `is_blocked_by t all` holds iff some id in `t`'s deps resolves by
exact id match to a ticket in `all` whose status is open; a dependency id
resolving to no ticket never makes `t` blocked (the right-hand side demands
a resolving open ticket). -/
theorem c3_is_blocked_by_iff (t : Ticket) (all : List Ticket)
    (hN : (all.map Ticket.id).Nodup) :
    t.is_blocked_by all = true ↔
      ∃ d ∈ t.meta.deps, ∃ u ∈ all, u.id = d ∧ u.is_open = true := by
  unfold Ticket.is_blocked_by
  rw [List.any_eq_true]
  constructor
  · rintro ⟨d, hd, hmatch⟩
    refine ⟨d, hd, ?_⟩
    cases hfind : all.find? (fun u => u.id = d) with
    | none => rw [hfind] at hmatch; cases hmatch
    | some u =>
      rw [hfind] at hmatch
      have hu := List.find?_some hfind
      exact ⟨u, List.mem_of_find?_eq_some hfind, by simpa using hu, hmatch⟩
  · rintro ⟨d, hd, u, hu, hid, hopen⟩
    refine ⟨d, hd, ?_⟩
    cases hfind : all.find? (fun v => v.id = d) with
    | none =>
      have := List.find?_eq_none.mp hfind u hu
      simp [hid] at this
    | some v =>
      have hv : v.id = d := by simpa using List.find?_some hfind
      have hveq : v = u :=
        id_inj_of_nodup hN (List.mem_of_find?_eq_some hfind) hu (hv.trans hid.symm)
      rw [hveq]
      exact hopen

/-- C3 witness: the hypotheses are satisfiable and the theorem applies at a
concrete blocked ticket. -/
theorem c3_is_blocked_by_iff_witness :
    (([exDep].map Ticket.id).Nodup) ∧
      (exBlk.is_blocked_by [exDep] = true ↔
        ∃ d ∈ exBlk.meta.deps, ∃ u ∈ [exDep], u.id = d ∧ u.is_open = true) :=
  ⟨by decide, c3_is_blocked_by_iff exBlk [exDep] (by decide)⟩

/-! ## Claim C6: prefix resolution -/

/-- C6: exact-id matches win immediately (even when other ids share the
searched prefix); with no exact match, zero prefix matches give not-found,
exactly one gives that ticket, and two or more give the ambiguity error
naming the match count. -/
theorem c6_find_by_prefix_spec (tickets : List Ticket) (q : String) :
    ((tickets.map Ticket.id).Nodup →
      ∀ t ∈ tickets, t.id = q → find_by_prefix tickets q = FindResult.found t)
    ∧ ((∀ t ∈ tickets, t.id ≠ q) →
      (tickets.filter (fun t => (q.data).isPrefixOf t.id.data) = [] →
        find_by_prefix tickets q = FindResult.notFound)
      ∧ (∀ t, tickets.filter (fun t => (q.data).isPrefixOf t.id.data) = [t] →
        find_by_prefix tickets q = FindResult.found t)
      ∧ (2 ≤ (tickets.filter (fun t => (q.data).isPrefixOf t.id.data)).length →
        find_by_prefix tickets q =
          FindResult.ambiguous
            (tickets.filter (fun t => (q.data).isPrefixOf t.id.data)).length)) := by
  constructor
  · intro hN t ht hid
    unfold find_by_prefix
    cases hfind : tickets.find? (fun u => u.id = q) with
    | none =>
      have := List.find?_eq_none.mp hfind t ht
      simp [hid] at this
    | some u =>
      have hu : u.id = q := by simpa using List.find?_some hfind
      have : u = t :=
        id_inj_of_nodup hN (List.mem_of_find?_eq_some hfind) ht (hu.trans hid.symm)
      rw [this]
  · intro hno
    have hfind : tickets.find? (fun u => u.id = q) = none :=
      List.find?_eq_none.mpr fun t ht => by simpa using hno t ht
    refine ⟨?_, ?_, ?_⟩
    · intro hms
      unfold find_by_prefix
      rw [hfind, hms]
    · intro t hms
      unfold find_by_prefix
      rw [hfind, hms]
    · intro hlen
      unfold find_by_prefix
      rw [hfind]
      rcases hms : tickets.filter (fun t => (q.data).isPrefixOf t.id.data) with
        _ | ⟨a, _ | ⟨b, r⟩⟩
      · rw [hms] at hlen; simp at hlen
      · rw [hms] at hlen; simp at hlen
      · rw [hms]

/-- C6 witness: the specification's own example, two tickets sharing the
prefix `tk-a`; the theorem applies with its hypotheses discharged. -/
theorem c6_find_by_prefix_spec_witness :
    (([exP1, exP2].map Ticket.id).Nodup) ∧ exP1.id = "tk-ab12" ∧
      find_by_prefix [exP1, exP2] "tk-ab12" = FindResult.found exP1 ∧
      find_by_prefix [exP1, exP2] "tk-a" = FindResult.ambiguous 2 := by
  refine ⟨by decide, by decide, ?_, ?_⟩
  · exact (c6_find_by_prefix_spec [exP1, exP2] "tk-ab12").1 (by decide) exP1
      (by decide) (by decide)
  · have h := ((c6_find_by_prefix_spec [exP1, exP2] "tk-a").2 (by decide)).2.2 (by decide)
    simpa using h

/-! ## Claim C2: the ready listing -/

theorem insertByPriority_perm (x : Ticket) (l : List Ticket) :
    (insertByPriority x l).Perm (x :: l) := by
  induction l with
  | nil => exact List.Perm.refl _
  | cons y ys ih =>
    unfold insertByPriority
    split
    · exact List.Perm.refl _
    · exact (List.Perm.cons y ih).trans (List.Perm.swap x y ys)

theorem sortByPriority_perm (l : List Ticket) : (sortByPriority l).Perm l := by
  induction l with
  | nil => exact List.Perm.refl _
  | cons x xs ih =>
    exact (insertByPriority_perm x (sortByPriority xs)).trans (List.Perm.cons x ih)

theorem insertByPriority_sorted (x : Ticket) (l : List Ticket)
    (h : l.Pairwise fun a b => a.meta.priority ≤ b.meta.priority) :
    (insertByPriority x l).Pairwise fun a b => a.meta.priority ≤ b.meta.priority := by
  induction l with
  | nil => simp [insertByPriority]
  | cons y ys ih =>
    rw [List.pairwise_cons] at h
    unfold insertByPriority
    split
    · rename_i hle
      rw [List.pairwise_cons]
      refine ⟨?_, List.pairwise_cons.mpr h⟩
      intro b hb
      rcases List.mem_cons.mp hb with rfl | hb'
      · exact hle
      · exact le_trans hle (h.1 b hb')
    · rename_i hgt
      have hxy : y.meta.priority ≤ x.meta.priority := le_of_not_le hgt
      rw [List.pairwise_cons]
      refine ⟨?_, ih h.2⟩
      intro b hb
      have := (insertByPriority_perm x ys).mem_iff.mp hb
      rcases List.mem_cons.mp this with rfl | hb'
      · exact hxy
      · exact h.1 b hb'

theorem sortByPriority_sorted (l : List Ticket) :
    (sortByPriority l).Pairwise fun a b => a.meta.priority ≤ b.meta.priority := by
  induction l with
  | nil => simp [sortByPriority]
  | cons x xs ih => exact insertByPriority_sorted x (sortByPriority xs) ih

theorem insertByPriority_filter_key (x : Ticket) (l : List Ticket) (p : Nat) :
    (insertByPriority x l).filter (fun t => t.meta.priority = p) =
      if x.meta.priority = p then x :: l.filter (fun t => t.meta.priority = p)
      else l.filter (fun t => t.meta.priority = p) := by
  induction l with
  | nil =>
    simp only [insertByPriority, List.filter]
    by_cases hx : x.meta.priority = p
    · simp [hx]
    · simp [hx]
  | cons y ys ih =>
    unfold insertByPriority
    split
    · rename_i hle
      by_cases hx : x.meta.priority = p
      · simp [List.filter, hx]
      · simp [List.filter, hx]
    · rename_i hgt
      have hyx : y.meta.priority < x.meta.priority := lt_of_not_le hgt
      by_cases hx : x.meta.priority = p
      · have hy : ¬ y.meta.priority = p := by
          intro hy
          rw [hx] at hyx
          rw [hy] at hyx
          exact lt_irrefl p hyx
        simp [List.filter, hy, hx, ih]
      · by_cases hy : y.meta.priority = p
        · simp [List.filter, hy, hx, ih]
        · simp [List.filter, hy, hx, ih]

theorem sortByPriority_filter_key (l : List Ticket) (p : Nat) :
    (sortByPriority l).filter (fun t => t.meta.priority = p) =
      l.filter (fun t => t.meta.priority = p) := by
  induction l with
  | nil => rfl
  | cons x xs ih =>
    unfold sortByPriority
    rw [insertByPriority_filter_key]
    by_cases hx : x.meta.priority = p
    · simp [List.filter, hx, ih]
    · simp [List.filter, hx, ih]

theorem filter_tagsPass_nil (l : List Ticket) : l.filter (tagsPass []) = l := by
  induction l with
  | nil => rfl
  | cons x xs ih => simp [List.filter, tagsPass, ih]

/-- C2 counterexample: with two open dep-free tickets of equal priority
loaded with the later-created one first, the ready listing keeps the load
order, so it is not tie-broken by creation timestamp ascending. -/
theorem c2_ready_counterexample :
    ¬ (cmd_ready [exX, exY] []).Pairwise
        (fun a b => a.meta.priority < b.meta.priority ∨
          (a.meta.priority = b.meta.priority ∧ a.meta.created ≤ b.meta.created)) := by
  decide

/-- C2 (amended): the ready listing contains exactly the loaded tickets
that are open and not blocked, sorted ascending by priority; ties among
equal priorities keep the load order (Rust's `sort_by_key` is stable), not
creation-timestamp order. -/
theorem c2_ready_spec (tickets : List Ticket) :
    (cmd_ready tickets []).Perm
      (tickets.filter fun t => t.is_open && !(t.is_blocked_by tickets))
    ∧ (cmd_ready tickets []).Pairwise (fun a b => a.meta.priority ≤ b.meta.priority)
    ∧ (∀ p : Nat, (cmd_ready tickets []).filter (fun t => t.meta.priority = p) =
        (tickets.filter fun t => t.is_open && !(t.is_blocked_by tickets)).filter
          (fun t => t.meta.priority = p))
    ∧ (∀ t : Ticket, t ∈ cmd_ready tickets [] ↔
        t ∈ tickets ∧ t.is_open = true ∧ t.is_blocked_by tickets = false) := by
  unfold cmd_ready
  rw [filter_tagsPass_nil]
  refine ⟨sortByPriority_perm _, sortByPriority_sorted _, fun p => sortByPriority_filter_key _ p,
    fun t => ?_⟩
  rw [(sortByPriority_perm _).mem_iff, List.mem_filter]
  constructor
  · rintro ⟨ht, hp⟩
    rw [Bool.and_eq_true, Bool.not_eq_true'] at hp
    exact ⟨ht, hp.1, hp.2⟩
  · rintro ⟨ht, ho, hb⟩
    refine ⟨ht, ?_⟩
    rw [Bool.and_eq_true, Bool.not_eq_true']
    exact ⟨ho, hb⟩

/-! ## Claim C5: self-dependency via cmd_dep -/

/-- C5 (code evaluated at the failing input): `cmd_dep` resolves both
arguments independently and only rejects duplicates, so invoking it with
the same ticket as both arguments saves a ticket whose deps contain its own
id — the dependency-add operation does produce a self-loop. -/
theorem c5_dep_self_loop :
    cmd_dep [exSelf] "tk-a1b2" "tk-a1b2" 5 = some exSelfAfter ∧
      exSelfAfter.id ∈ exSelfAfter.meta.deps := by
  constructor
  · decide
  · decide

/-! ## Claim C9: mutating operations and the updated timestamp -/

/-- C9 (code evaluated at the failing operation): a successful `cmd_edit`
leaves the whole frontmatter — in particular the `updated` timestamp —
unchanged: the edit command never touches the ticket before saving, unlike
the status/close/dep/undep/note commands. -/
theorem c9_edit_does_not_touch (t : Ticket) (inp : String) (t' : Ticket)
    (h : cmd_edit t inp = some t') : t'.meta.updated = t.meta.updated := by
  simp only [cmd_edit] at h
  split at h
  · cases h
  · split at h
    · cases h
    · cases h
      rfl

/-- C9 witness: a concrete edit that succeeds while leaving `updated`
unset. -/
theorem c9_edit_does_not_touch_witness :
    cmd_edit exEdit "# New title" = some exEditAfter ∧ exEdit.meta.updated = none ∧
      exEditAfter.meta.updated = exEdit.meta.updated :=
  ⟨by decide, by decide, c9_edit_does_not_touch exEdit "# New title" exEditAfter (by decide)⟩

/-! ## Claim C7: child id generation -/

theorem le_foldr_max {n : Nat} {ns : List Nat} (h : n ∈ ns) : n ≤ ns.foldr Nat.max 0 := by
  induction ns with
  | nil => cases h
  | cons a as ih =>
    rw [List.foldr_cons]
    rcases List.mem_cons.mp h with rfl | h'
    · exact Nat.le_max_left _ _
    · exact le_trans (ih h') (Nat.le_max_right _ _)

theorem foldr_max_mem (ns : List Nat) : ns.foldr Nat.max 0 = 0 ∨ ns.foldr Nat.max 0 ∈ ns := by
  induction ns with
  | nil => left; rfl
  | cons a as ih =>
    rcases Nat.le_total a (as.foldr Nat.max 0) with hle | hle
    · rw [List.foldr_cons]
      rw [show a.max (as.foldr Nat.max 0) = as.foldr Nat.max 0 from Nat.max_eq_right hle]
      rcases ih with h0 | hmem
      · left; exact h0
      · right; exact List.mem_cons_of_mem a hmem
    · rw [List.foldr_cons]
      rw [show a.max (as.foldr Nat.max 0) = a from Nat.max_eq_left hle]
      right; exact List.mem_cons_self a as

theorem mem_childNums_iff (parent : String) (existing : List String) (n : Nat) :
    n ∈ childNums parent existing ↔
      ∃ i ∈ existing, ∃ s, i.data = parent.data ++ '.' :: s ∧ s.contains '.' = false ∧
        parseU32 s = some n := by
  unfold childNums
  rw [List.mem_filterMap]
  constructor
  · rintro ⟨i, hi, hf⟩
    refine ⟨i, hi, ?_⟩
    by_cases hp : (parent.data ++ ['.']).isPrefixOf i.data
    · rw [if_pos hp] at hf
      obtain ⟨s, hs⟩ := List.isPrefixOf_iff_prefix.mp hp
      have hdrop : i.data.drop (parent.data.length + 1) = s := by
        rw [← hs]
        have : (parent.data ++ ['.']).length = parent.data.length + 1 := by simp
        rw [← this, List.drop_left]
      rw [hdrop] at hf
      refine ⟨s, ?_, ?_, ?_⟩
      · rw [← hs]; simp
      · by_cases hc : s.contains '.'
        · rw [if_pos hc] at hf; cases hf
        · exact Bool.eq_false_iff.mpr hc
      · by_cases hc : s.contains '.'
        · rw [if_pos hc] at hf; cases hf
        · rw [if_neg hc] at hf; exact hf
    · rw [if_neg hp] at hf; cases hf
  · rintro ⟨i, hi, s, heq, hc, hp32⟩
    refine ⟨i, hi, ?_⟩
    have hp : (parent.data ++ ['.']).isPrefixOf i.data := by
      rw [List.isPrefixOf_iff_prefix]
      exact ⟨s, by rw [heq]; simp⟩
    rw [if_pos hp]
    have hdrop : i.data.drop (parent.data.length + 1) = s := by
      rw [heq]
      have h1 : parent.data ++ '.' :: s = (parent.data ++ ['.']) ++ s := by simp
      have h2 : (parent.data ++ ['.']).length = parent.data.length + 1 := by simp
      rw [h1, ← h2, List.drop_left]
    simp only [hdrop, hc]
    simpa using hp32

/-- C7: `generate_child` returns `parent.<max+1>`, where `max` is the
greatest integer `n` among existing ids of the exact form `parent.<n>`
(deeper-nested ids ignored) and 0 when no such id exists; being a pure
function of its arguments, the result is deterministic.  The hypothesis
excludes the one value at which `u32` successor arithmetic would wrap. -/
theorem c7_generate_child_spec (parent : String) (existing : List String)
    (hov : childMax parent existing + 1 < 2 ^ 32) :
    generate_child parent existing =
      String.mk (parent.data ++ '.' :: (toString (childMax parent existing + 1)).data)
    ∧ (∀ i ∈ existing, ∀ s n, i.data = parent.data ++ '.' :: s → s.contains '.' = false →
        parseU32 s = some n → n ≤ childMax parent existing)
    ∧ (childMax parent existing = 0 ∨
        ∃ i ∈ existing, ∃ s, i.data = parent.data ++ '.' :: s ∧ s.contains '.' = false ∧
          parseU32 s = some (childMax parent existing)) := by
  refine ⟨?_, ?_, ?_⟩
  · unfold generate_child
    rw [Nat.mod_eq_of_lt hov]
  · intro i hi s n heq hc hp
    unfold childMax
    exact le_foldr_max ((mem_childNums_iff parent existing n).mpr ⟨i, hi, s, heq, hc, hp⟩)
  · unfold childMax
    rcases foldr_max_mem (childNums parent existing) with h0 | hmem
    · left; exact h0
    · right; exact (mem_childNums_iff parent existing _).mp hmem

/-- C7 witness: the specification's own examples, with a deeper-nested id
present and ignored. -/
theorem c7_generate_child_spec_witness :
    (childMax "tk-a1b2" ["tk-a1b2.1", "tk-a1b2.2", "tk-a1b2.3.1"] + 1 < 2 ^ 32) ∧
      generate_child "tk-a1b2" ["tk-a1b2.1", "tk-a1b2.2", "tk-a1b2.3.1"] = "tk-a1b2.3" := by
  refine ⟨by decide, ?_⟩
  have h := (c7_generate_child_spec "tk-a1b2" ["tk-a1b2.1", "tk-a1b2.2", "tk-a1b2.3.1"]
    (by decide)).1
  rw [h]
  decide

/-! ## Claim C8: id generation and the unchecked fallback -/

theorem genLoop_avoids (existing : List String) (draws : Nat → List Char) :
    ∀ (rem i : Nat),
      (∃ j, i ≤ j ∧ j < i + rem ∧ existing.contains (mkCand draws j) = false) →
      existing.contains (genLoop existing draws i rem) = false := by
  intro rem
  induction rem with
  | zero =>
    rintro i ⟨j, hij, hj, _⟩
    omega
  | succ m ih =>
    rintro i ⟨j, hij, hj, hjc⟩
    show existing.contains
      (if existing.contains (mkCand draws i) = true then genLoop existing draws (i + 1) m
       else mkCand draws i) = false
    by_cases hc : existing.contains (mkCand draws i) = true
    · rw [if_pos hc]
      have hij' : i + 1 ≤ j := by
        rcases Nat.eq_or_lt_of_le hij with rfl | hlt
        · rw [hjc] at hc; cases hc
        · exact hlt
      exact ih (i + 1) ⟨j, hij', by omega, hjc⟩
    · rw [if_neg hc]
      exact Bool.eq_false_iff.mpr hc

set_option maxRecDepth 4000 in
/-- C8 counterexample: with a digest oracle that always yields the same
digest and an existing set holding every candidate it can produce —
including the fallback id — `generate` returns an id present in its
`existing` input (the fallback performs no collision check). -/
theorem c8_counterexample : exC8.contains (generate exC8 exDraws) = true := by decide

/-- C8 (amended): `generate` never returns an id present in `existing`
provided at least one of its 500 collision-checked draws produces a fresh
candidate; only the final fallback is returned without a collision check. -/
theorem c8_generate_avoids (existing : List String) (draws : Nat → List Char)
    (h : ∃ j, j < 500 ∧ existing.contains (mkCand draws j) = false) :
    existing.contains (generate existing draws) = false := by
  obtain ⟨j, hj, hc⟩ := h
  exact genLoop_avoids existing draws 500 0 ⟨j, Nat.zero_le j, by omega, hc⟩

/-- C8 witness: the amended theorem applied at a concrete input whose very
first draw is fresh. -/
theorem c8_generate_avoids_witness :
    (["tk-zzzz"] : List String).contains (generate ["tk-zzzz"] exDraws) = false :=
  c8_generate_avoids ["tk-zzzz"] exDraws ⟨0, by decide, by decide⟩

/-! ## Claim C4: cycle detection -/

/-- C4: on the three-ticket cycle fixture (`tk-a` → `tk-b` → `tk-c` →
`tk-a`) `find_cycles` reports exactly one cycle, containing the three ids
in traversal order; a node already fully visited and off the recursion
stack is never re-expanded (the dep step leaves the state untouched); and a
dangling id — one that resolves to no ticket — terminates the branch
without producing an edge (the DFS call leaves the collected cycles
unchanged). -/
theorem c4_cycle_detection :
    find_cycles [exA, exB, exC] = [["tk-a", "tk-b", "tk-c"]]
    ∧ (∀ (f : Nat) (tickets : List Ticket) (nid : String) (st : DfsSt),
        lookupTicket tickets nid = none →
        (dfs_cycles (f + 1) tickets nid st).cycles = st.cycles)
    ∧ (∀ (f : Nat) (tickets : List Ticket) (acc : DfsSt) (d : String),
        acc.visited.contains d = true → acc.recStack.contains d = false →
        depStep f tickets acc d = acc) := by
  refine ⟨by decide, ?_, ?_⟩
  · intro f tickets nid st h
    simp [dfs_cycles, h]
  · intro f tickets acc d hv hr
    have hv' : d ∈ acc.visited := by simpa using hv
    have hr' : d ∉ acc.recStack := by simpa using hr
    simp [depStep, hv', hr']

/-- C4 witness: the dangling-dep and visited-off-stack parts of the
theorem applied at concrete states. -/
theorem c4_cycle_detection_witness :
    (dfs_cycles 1 [] "tk-z" ⟨[], [], [], []⟩).cycles = ([] : List (List String))
    ∧ depStep 0 [] ⟨["tk-z"], [], [], []⟩ "tk-z" = ⟨["tk-z"], [], [], []⟩ :=
  ⟨c4_cycle_detection.2.1 0 [] "tk-z" ⟨[], [], [], []⟩ rfl,
   c4_cycle_detection.2.2 0 [] ⟨["tk-z"], [], [], []⟩ "tk-z" (by decide) (by decide)⟩

/-! ## Claim C10: tree-view termination on acyclic graphs -/

theorem mem_resolvedDeps {t : Ticket} {all : List Ticket} {full : Bool} {u : Ticket}
    (h : u ∈ resolvedDeps t all full) :
    u ∈ all ∧ ∃ d ∈ t.meta.deps, lookupTicket all d = some u := by
  unfold resolvedDeps at h
  rw [List.mem_filter] at h
  obtain ⟨h1, _⟩ := h
  rw [List.mem_filterMap] at h1
  obtain ⟨d, hd, hfind⟩ := h1
  exact ⟨List.mem_of_find?_eq_some hfind, d, hd, hfind⟩

theorem depsRankOk_lt {rnk : String → Nat} {all : List Ticket} {u : Ticket}
    (h : depsRankOk rnk all u = true) {d : String} (hd : d ∈ u.meta.deps) {v : Ticket}
    (hv : lookupTicket all d = some v) : rnk v.id < rnk u.id := by
  unfold depsRankOk at h
  rw [List.all_eq_true] at h
  have hx := h d hd
  rw [hv] at hx
  simpa using hx

theorem build_tree_json_isSome (all : List Ticket) (full : Bool) (rnk : String → Nat)
    (hall : ∀ u ∈ all, depsRankOk rnk all u = true) :
    ∀ (fuel : Nat) (t : Ticket), depsRankOk rnk all t = true → rnk t.id < fuel →
      (build_tree_json fuel t all full).isSome = true := by
  intro fuel
  induction fuel with
  | zero => intro t _ h; exact absurd h (Nat.not_lt_zero _)
  | succ f ih =>
    intro t hok hlt
    have hds : ∀ u ∈ resolvedDeps t all full, u ∈ all ∧ rnk u.id < f := by
      intro u hu
      obtain ⟨hmem, d, hd, hfind⟩ := mem_resolvedDeps hu
      have := depsRankOk_lt hok hd hfind
      exact ⟨hmem, by omega⟩
    have hforest : ∀ (ds : List Ticket), (∀ u ∈ ds, u ∈ all ∧ rnk u.id < f) →
        (buildForest f ds all full).isSome = true := by
      intro ds
      induction ds with
      | nil => intro _; rw [buildForest]; rfl
      | cons d rest ihd =>
        intro hds'
        rw [buildForest]
        have h1 := hds' d (List.mem_cons_self d rest)
        obtain ⟨n, hn⟩ := Option.isSome_iff_exists.mp (ih d (hall d h1.1) h1.2)
        rw [hn]
        obtain ⟨ns, hns⟩ :=
          Option.isSome_iff_exists.mp (ihd fun u hu => hds' u (List.mem_cons_of_mem d hu))
        rw [hns]
        rfl
    rw [build_tree_json]
    obtain ⟨ns, hns⟩ := Option.isSome_iff_exists.mp (hforest _ hds)
    rw [hns]
    rfl

theorem printLoop_isSome (all : List Ticket) (full : Bool) (rnk : String → Nat)
    (hall : ∀ u ∈ all, depsRankOk rnk all u = true)
    (f : Nat)
    (hp : ∀ (t : Ticket), depsRankOk rnk all t = true → rnk t.id < f →
      ∀ pre, (print_dep_tree f t all pre full).isSome = true) :
    ∀ (ds : List Ticket), (∀ u ∈ ds, u ∈ all ∧ rnk u.id < f) →
      ∀ (pre : String) (total i : Nat), (printLoop f ds all pre full total i).isSome = true := by
  intro ds
  induction ds with
  | nil => intro _ pre total i; rw [printLoop]; rfl
  | cons d rest ihd =>
    intro hds pre total i
    rw [printLoop]
    have h1 := hds d (List.mem_cons_self d rest)
    obtain ⟨sub, hsub⟩ :=
      Option.isSome_iff_exists.mp (hp d (hall d h1.1) h1.2 _)
    rw [hsub]
    obtain ⟨more, hmore⟩ :=
      Option.isSome_iff_exists.mp
        (ihd (fun u hu => hds u (List.mem_cons_of_mem d hu)) pre total (i + 1))
    rw [hmore]
    rfl

theorem print_dep_tree_isSome (all : List Ticket) (full : Bool) (rnk : String → Nat)
    (hall : ∀ u ∈ all, depsRankOk rnk all u = true) :
    ∀ (fuel : Nat) (t : Ticket), depsRankOk rnk all t = true → rnk t.id < fuel →
      ∀ (pre : String), (print_dep_tree fuel t all pre full).isSome = true := by
  intro fuel
  induction fuel with
  | zero => intro t _ h; exact absurd h (Nat.not_lt_zero _)
  | succ f ih =>
    intro t hok hlt pre
    have hds : ∀ u ∈ resolvedDeps t all full, u ∈ all ∧ rnk u.id < f := by
      intro u hu
      obtain ⟨hmem, d, hd, hfind⟩ := mem_resolvedDeps hu
      have := depsRankOk_lt hok hd hfind
      exact ⟨hmem, by omega⟩
    rw [print_dep_tree]
    exact printLoop_isSome all full rnk hall f
      (fun u hu hltu pr => ih u hu hltu pr) _ hds pre _ _

/-- C10: for every finite ticket set whose resolved dependency edges admit
a rank certificate (equivalently, form an acyclic graph), the recursive
tree expansions `build_tree_json` and `print_dep_tree` terminate: fuel one
more than the root's rank suffices, so the recursion — which has no cycle
guard — is well-founded exactly under the acyclicity precondition. -/
theorem c10_tree_terminates (all : List Ticket) (root : Ticket) (rnk : String → Nat)
    (full : Bool)
    (hroot : depsRankOk rnk all root = true)
    (hall : ∀ u ∈ all, depsRankOk rnk all u = true) :
    (build_tree_json (rnk root.id + 1) root all full).isSome = true
    ∧ (print_dep_tree (rnk root.id + 1) root all "" full).isSome = true :=
  ⟨build_tree_json_isSome all full rnk hall (rnk root.id + 1) root hroot (by omega),
   print_dep_tree_isSome all full rnk hall (rnk root.id + 1) root hroot (by omega) ""⟩

/-- C10 witness: the theorem applied to a concrete two-ticket acyclic
corpus with an explicit rank certificate. -/
theorem c10_tree_terminates_witness :
    (build_tree_json (exRank exTreeA.id + 1) exTreeA [exTreeA, exTreeB] false).isSome = true
    ∧ (print_dep_tree (exRank exTreeA.id + 1) exTreeA [exTreeA, exTreeB] "" false).isSome
        = true :=
  c10_tree_terminates [exTreeA, exTreeB] exTreeA exRank false (by decide)
    (by decide)

/-! ## Claim C1: trim lemmas -/

theorem trimL_cons_of_not_ws {a : Char} (h : ¬ a.isWhitespace = true) (l : List Char) :
    trimL (a :: l) = a :: l := by
  unfold trimL
  rw [List.dropWhile_cons, if_neg h]

theorem trimR_concat_ws {c : Char} (h : c.isWhitespace = true) (X : List Char) :
    trimR (X ++ [c]) = trimR X :=
  List.rdropWhile_concat_pos _ _ _ h

theorem trimR_concat_not_ws {c : Char} (h : ¬ c.isWhitespace = true) (X : List Char) :
    trimR (X ++ [c]) = X ++ [c] :=
  List.rdropWhile_concat_neg _ _ _ h

theorem trimR_append_ws (X W : List Char) (hW : ∀ x ∈ W, x.isWhitespace = true) :
    trimR (X ++ W) = trimR X := by
  induction W using List.reverseRecOn with
  | nil => rw [List.append_nil]
  | append_singleton W₀ w ih =>
    rw [← List.append_assoc, trimR_concat_ws (hW w (by simp)) (X ++ W₀)]
    exact ih fun x hx => hW x (by simp [hx])

theorem trimR_append_rtake (l : List Char) :
    trimR l ++ l.rtakeWhile Char.isWhitespace = l := by
  unfold trimR
  rw [List.rdropWhile, List.rtakeWhile, ← List.reverse_append,
    List.takeWhile_append_dropWhile, List.reverse_reverse]

theorem trimR_cons_of_ne {a : Char} {X : List Char} (h : trimR X ≠ []) :
    trimR (a :: X) = a :: trimR X := by
  obtain ⟨Z, c, hzc⟩ : ∃ Z c, trimR X = Z ++ [c] := by
    rcases List.eq_nil_or_concat (trimR X) with h0 | ⟨Z, c, hzc⟩
    · exact absurd h0 h
    · exact ⟨Z, c, by simpa [List.concat_eq_append] using hzc⟩
  have hc : ¬ c.isWhitespace = true := by
    intro hws
    have hid : trimR (Z ++ [c]) = Z ++ [c] := by
      conv_lhs => rw [← hzc]
      conv_rhs => rw [← hzc]
      exact List.rdropWhile_idempotent _ _
    rw [trimR_concat_ws hws Z] at hid
    have hpre : trimR Z <+: Z := List.rdropWhile_prefix _ Z
    have hlen := hpre.length_le
    rw [hid] at hlen
    simp at hlen
  conv_lhs => rw [← trimR_append_rtake X]
  rw [show a :: (trimR X ++ X.rtakeWhile Char.isWhitespace) =
        (a :: trimR X) ++ X.rtakeWhile Char.isWhitespace from rfl]
  rw [trimR_append_ws _ _ fun x hx => List.mem_rtakeWhile_imp hx]
  rw [hzc, show a :: (Z ++ [c]) = (a :: Z) ++ [c] from rfl, trimR_concat_not_ws hc]

theorem trimC_cons_ws {a : Char} (ha : a.isWhitespace = true) (X : List Char) :
    trimC (a :: X) = trimC X := by
  unfold trimC
  by_cases h0 : trimR X = []
  · have h1 : trimR (a :: X) = [] := by
      rw [show trimR (a :: X) = List.rdropWhile Char.isWhitespace (a :: X) from rfl]
      rw [List.rdropWhile_eq_nil_iff]
      intro x hx
      rcases List.mem_cons.mp hx with rfl | hx'
      · exact ha
      · exact (List.rdropWhile_eq_nil_iff.mp h0) x hx'
    rw [h0, h1]
  · rw [trimR_cons_of_ne h0]
    unfold trimL
    rw [List.dropWhile_cons, if_pos ha]

theorem trimC_ws_prefix (W X : List Char) (hW : ∀ x ∈ W, x.isWhitespace = true) :
    trimC (W ++ X) = trimC X := by
  induction W with
  | nil => rw [List.nil_append]
  | cons w W' ih =>
    rw [List.cons_append, trimC_cons_ws (hW w (by simp))]
    exact ih fun x hx => hW x (by simp [hx])

theorem trimC_core {a c : Char} (ha : ¬ a.isWhitespace = true) (hc : ¬ c.isWhitespace = true)
    (X W : List Char) (hW : ∀ x ∈ W, x.isWhitespace = true) :
    trimC ((a :: X ++ [c]) ++ W) = a :: X ++ [c] := by
  unfold trimC
  rw [trimR_append_ws _ _ hW]
  rw [show a :: X ++ [c] = (a :: X) ++ [c] from rfl, trimR_concat_not_ws hc]
  exact trimL_cons_of_not_ws ha _

theorem trimR_eq_self_of_trim {l : List Char} (h : trimC l = l) : trimR l = l := by
  have hpre : trimR l <+: l := List.rdropWhile_prefix _ l
  have hsuf : trimC l <:+ trimR l := List.dropWhile_suffix _
  have h1 : l.length ≤ (trimR l).length := by
    have h2 := hsuf.length_le
    rw [h] at h2
    exact h2
  exact hpre.eq_of_length (le_antisymm hpre.length_le h1)

theorem trimL_eq_self_of_trim {l : List Char} (h : trimC l = l) : trimL l = l := by
  have hR := trimR_eq_self_of_trim h
  unfold trimC at h
  rw [hR] at h
  exact h

theorem head_not_ws_of_trim {a : Char} {l : List Char} (h : trimC (a :: l) = a :: l) :
    ¬ a.isWhitespace = true := by
  have hL := trimL_eq_self_of_trim h
  unfold trimL at hL
  rw [List.dropWhile_cons] at hL
  intro hws
  rw [if_pos hws] at hL
  have hs := (List.dropWhile_suffix (l := l) Char.isWhitespace).length_le
  rw [hL] at hs
  simp at hs

theorem last_not_ws_of_trim {l : List Char} (h : trimC l = l) (hne : l ≠ []) :
    ¬ (l.getLast hne).isWhitespace = true :=
  (List.rdropWhile_eq_self_iff.mp (trimR_eq_self_of_trim h)) hne

/-! ## Claim C1: substring search lemmas -/

theorem findSubstr_some_of (pat : List Char) (k : Nat) :
    ∀ (l : List Char), (∀ i < k, ¬ pat.isPrefixOf (l.drop i) = true) →
      pat.isPrefixOf (l.drop k) = true → findSubstr l pat = some k := by
  induction k with
  | zero =>
    intro l _ h2
    rw [List.drop_zero] at h2
    unfold findSubstr
    rw [if_pos h2]
  | succ j ih =>
    intro l h1 h2
    have h0 : ¬ pat.isPrefixOf l = true := by
      have hx := h1 0 (Nat.succ_pos j)
      rwa [List.drop_zero] at hx
    unfold findSubstr
    rw [if_neg h0]
    cases l with
    | nil =>
      exfalso
      rw [List.drop_nil] at h2
      have hpat : pat = [] := by
        cases pat with
        | nil => rfl
        | cons p ps => simp [List.isPrefixOf] at h2
      rw [hpat] at h0
      simp [List.isPrefixOf] at h0
    | cons x t =>
      show (findSubstr t pat).map (· + 1) = some (j + 1)
      have ha : ∀ i < j, ¬ pat.isPrefixOf (t.drop i) = true := by
        intro i hi
        have hx := h1 (i + 1) (by omega)
        rwa [List.drop_succ_cons] at hx
      have hb : pat.isPrefixOf (t.drop j) = true := by
        rw [List.drop_succ_cons] at h2
        exact h2
      rw [ih t ha hb]
      rfl

theorem isPrefixOf_of_append_of_le {pat X Z : List Char}
    (h : pat.isPrefixOf (X ++ Z) = true) (hlen : pat.length ≤ X.length) :
    pat.isPrefixOf X = true := by
  rw [List.isPrefixOf_iff_prefix] at h ⊢
  rw [List.prefix_iff_eq_take] at h ⊢
  rw [List.take_append_of_le_length hlen] at h
  exact h

theorem isPrefixOf_append_self (A B : List Char) : A.isPrefixOf (A ++ B) = true :=
  List.isPrefixOf_iff_prefix.mpr (List.prefix_append A B)

theorem findSubstr_delim (Y W : List Char) (hlast : Y.getLast? = some '\n')
    (hno : ∀ i, i < Y.length →
      ("\n---".data).isPrefixOf ((('\n' :: Y) ++ "---".data).drop i) = false) :
    findSubstr (('\n' :: Y) ++ ("---".data ++ W)) ("\n---".data) = some Y.length := by
  obtain ⟨Y₀, rfl⟩ := List.getLast?_eq_some_iff.mp hlast
  have hYlen : (Y₀ ++ ['\n']).length = Y₀.length + 1 := by simp
  have hAlen : (('\n' :: (Y₀ ++ ['\n'])) ++ "---".data).length = Y₀.length + 5 := by
    rw [List.length_append]
    rw [show ("---".data).length = 3 from rfl]
    simp
  apply findSubstr_some_of
  · intro i hi
    intro hpre
    rw [hYlen] at hi
    have hgroup : ('\n' :: (Y₀ ++ ['\n'])) ++ ("---".data ++ W) =
        (('\n' :: (Y₀ ++ ['\n'])) ++ "---".data) ++ W := by
      rw [List.append_assoc]
    rw [hgroup, List.drop_append_of_le_length (by rw [hAlen]; omega)] at hpre
    have hlen4 : ("\n---".data).length ≤
        (((('\n' :: (Y₀ ++ ['\n'])) ++ "---".data)).drop i).length := by
      rw [List.length_drop, hAlen, show ("\n---".data).length = 4 from rfl]
      omega
    have hx := isPrefixOf_of_append_of_le hpre hlen4
    rw [hno i (by rw [hYlen]; omega)] at hx
    cases hx
  · have hgroup : ('\n' :: (Y₀ ++ ['\n'])) ++ ("---".data ++ W) =
        ('\n' :: Y₀) ++ (['\n'] ++ ("---".data ++ W)) := by
      simp
    have hk : ('\n' :: Y₀).length = (Y₀ ++ ['\n']).length := by simp
    have hdrop : List.drop ((Y₀ ++ ['\n']).length)
        (('\n' :: Y₀) ++ (['\n'] ++ ("---".data ++ W))) = ['\n'] ++ ("---".data ++ W) :=
      List.drop_left' hk
    rw [hgroup, hdrop]
    exact isPrefixOf_append_self ("\n---".data) W

/-! ## Claim C1: line splitting and title extraction lemmas -/

theorem concat_last_not_ws {T₀ : List Char} {c : Char} (h : trimC (T₀ ++ [c]) = T₀ ++ [c]) :
    ¬ c.isWhitespace = true := by
  intro hws
  have hR := trimR_eq_self_of_trim h
  rw [trimR_concat_ws hws] at hR
  have hpre : trimR T₀ <+: T₀ := List.rdropWhile_prefix _ T₀
  have hlen := hpre.length_le
  rw [hR] at hlen
  simp at hlen

theorem splitNl_ne_nil (l : List Char) : splitNl l ≠ [] := by
  cases l with
  | nil => simp [splitNl]
  | cons c t =>
    unfold splitNl
    by_cases h : c = '\n'
    · simp [h]
    · rw [if_neg h]
      cases hs : splitNl t with
      | nil => simp
      | cons a r => simp

theorem splitNl_no_nl {l : List Char} (h : '\n' ∉ l) : splitNl l = [l] := by
  induction l with
  | nil => rfl
  | cons c t ih =>
    unfold splitNl
    have hc : ¬ c = '\n' := fun hx => h (hx ▸ List.mem_cons_self c t)
    rw [if_neg hc, ih fun hx => h (List.mem_cons_of_mem c hx)]

theorem splitNl_append {X : List Char} (h : '\n' ∉ X) (R : List Char) :
    splitNl (X ++ '\n' :: R) = X :: splitNl R := by
  induction X with
  | nil =>
    rw [List.nil_append]
    conv_lhs => unfold splitNl
    rw [if_pos rfl]
  | cons c t ih =>
    rw [List.cons_append]
    conv_lhs => unfold splitNl
    have hc : ¬ c = '\n' := fun hx => h (hx ▸ List.mem_cons_self c t)
    rw [if_neg hc, ih fun hx => h (List.mem_cons_of_mem c hx)]

theorem stripCr_of_ne {l : List Char} (h : l.getLast? ≠ some '\r') : stripCr l = l := by
  unfold stripCr
  rw [if_neg h]

theorem rustLines_no_nl {X : List Char} (hnl : '\n' ∉ X) (hne : X ≠ [])
    (hcr : X.getLast? ≠ some '\r') : rustLines X = [X] := by
  simp only [rustLines, if_neg hne, splitNl_no_nl hnl]
  rw [show ([X] : List (List Char)).getLast? = some X from rfl]
  rw [if_neg (by simpa using hne)]
  simp [stripCr_of_ne hcr]

theorem rustLines_head {X : List Char} (hnl : '\n' ∉ X) (hcr : X.getLast? ≠ some '\r')
    (R : List Char) : ∃ rest, rustLines (X ++ '\n' :: R) = X :: rest := by
  have hne : ¬ (X ++ '\n' :: R = []) := by simp
  simp only [rustLines, if_neg hne, splitNl_append hnl]
  cases hq : splitNl R with
  | nil => exact absurd hq (splitNl_ne_nil R)
  | cons y ys =>
    rw [List.getLast?_cons_cons]
    by_cases hlast : (y :: ys).getLast? = some ([] : List Char)
    · rw [if_pos hlast]
      rw [show (X :: y :: ys).dropLast = X :: (y :: ys).dropLast from rfl]
      rw [List.map_cons, stripCr_of_ne hcr]
      exact ⟨_, rfl⟩
    · rw [if_neg hlast]
      rw [List.map_cons, stripCr_of_ne hcr]
      exact ⟨_, rfl⟩

theorem extractTitleGo_heading (T R : List Char) (ls : List (List Char))
    (hT : T ≠ []) (hTtrim : trimC T = T) :
    extractTitleGo (('#' :: ' ' :: T) ++ R) (('#' :: ' ' :: T) :: ls) =
      some (T, R.dropWhile (· = '\n')) := by
  have hline : trimC ('#' :: ' ' :: T) = '#' :: ' ' :: T := by
    obtain ⟨T₀, c, hc⟩ : ∃ T₀ c, T = T₀ ++ [c] := by
      rcases List.eq_nil_or_concat T with h0 | ⟨T₀, c, hc⟩
      · exact absurd h0 hT
      · exact ⟨T₀, c, by simpa [List.concat_eq_append] using hc⟩
    have hcw : ¬ c.isWhitespace = true := concat_last_not_ws (hc ▸ hTtrim)
    have hmain := trimC_core (a := '#') (c := c) (by decide) hcw (' ' :: T₀) [] (by simp)
    rw [List.append_nil] at hmain
    rw [hc]
    exact hmain
  have hpre2 : ("# ".data).isPrefixOf ('#' :: ' ' :: T) = true := by
    rw [show "# ".data = ['#', ' '] from rfl]
    simp [List.isPrefixOf]
  simp only [extractTitleGo, hline, hpre2, if_true]
  have hfind : findSubstr (('#' :: ' ' :: T) ++ R) ('#' :: ' ' :: T) = some 0 := by
    unfold findSubstr
    rw [if_pos (isPrefixOf_append_self _ _)]
  rw [hfind]
  have hdrop2 : ('#' :: ' ' :: T).drop 2 = T := rfl
  have hdropR : (('#' :: ' ' :: T) ++ R).drop (0 + ('#' :: ' ' :: T).length) = R := by
    rw [Nat.zero_add]
    exact List.drop_left _ _
  show some (trimC (('#' :: ' ' :: T).drop 2),
      ((('#' :: ' ' :: T) ++ R).drop (0 + ('#' :: ' ' :: T).length)).dropWhile
        (fun x => decide (x = '\n'))) =
    some (T, R.dropWhile (fun x => decide (x = '\n')))
  rw [hdrop2, hTtrim, hdropR]

theorem extract_title_a (T : List Char) (hT : T ≠ []) (hTtrim : trimC T = T)
    (hTnl : '\n' ∉ T) : extract_title ('#' :: ' ' :: T) = (T, []) := by
  have hnl : '\n' ∉ ('#' :: ' ' :: T) := by
    intro hx
    rcases List.mem_cons.mp hx with h | hx'
    · cases h
    · rcases List.mem_cons.mp hx' with h | hx''
      · cases h
      · exact hTnl hx''
  have hcr : ('#' :: ' ' :: T).getLast? ≠ some '\r' := by
    obtain ⟨T₀, c, hc⟩ : ∃ T₀ c, T = T₀ ++ [c] := by
      rcases List.eq_nil_or_concat T with h0 | ⟨T₀, c, hc⟩
      · exact absurd h0 hT
      · exact ⟨T₀, c, by simpa [List.concat_eq_append] using hc⟩
    have hcw : ¬ c.isWhitespace = true := concat_last_not_ws (hc ▸ hTtrim)
    rw [hc]
    rw [show ('#' :: ' ' :: (T₀ ++ [c])) = ('#' :: ' ' :: T₀) ++ [c] from rfl]
    rw [List.getLast?_concat]
    intro hx
    have : c = '\r' := by simpa using hx
    rw [this] at hcw
    exact hcw (by decide)
  unfold extract_title
  rw [rustLines_no_nl hnl (by simp) hcr]
  have hgo := extractTitleGo_heading T [] [] hT hTtrim
  rw [List.append_nil] at hgo
  rw [hgo]
  rfl

theorem extract_title_b (T B : List Char) (hT : T ≠ []) (hTtrim : trimC T = T)
    (hTnl : '\n' ∉ T) (hB : B ≠ []) (hBtrim : trimC B = B) :
    extract_title (('#' :: ' ' :: T) ++ '\n' :: '\n' :: B) = (T, B) := by
  have hnl : '\n' ∉ ('#' :: ' ' :: T) := by
    intro hx
    rcases List.mem_cons.mp hx with h | hx'
    · cases h
    · rcases List.mem_cons.mp hx' with h | hx''
      · cases h
      · exact hTnl hx''
  have hcr : ('#' :: ' ' :: T).getLast? ≠ some '\r' := by
    obtain ⟨T₀, c, hc⟩ : ∃ T₀ c, T = T₀ ++ [c] := by
      rcases List.eq_nil_or_concat T with h0 | ⟨T₀, c, hc⟩
      · exact absurd h0 hT
      · exact ⟨T₀, c, by simpa [List.concat_eq_append] using hc⟩
    have hcw : ¬ c.isWhitespace = true := concat_last_not_ws (hc ▸ hTtrim)
    rw [hc]
    rw [show ('#' :: ' ' :: (T₀ ++ [c])) = ('#' :: ' ' :: T₀) ++ [c] from rfl]
    rw [List.getLast?_concat]
    intro hx
    have : c = '\r' := by simpa using hx
    rw [this] at hcw
    exact hcw (by decide)
  unfold extract_title
  obtain ⟨rest, hrest⟩ := rustLines_head hnl hcr ('\n' :: B)
  rw [hrest]
  rw [extractTitleGo_heading T ('\n' :: '\n' :: B) rest hT hTtrim]
  obtain ⟨b, B', rfl⟩ : ∃ b B', B = b :: B' := by
    cases B with
    | nil => exact absurd rfl hB
    | cons b B' => exact ⟨b, B', rfl⟩
  have hbw : ¬ b.isWhitespace = true := head_not_ws_of_trim hBtrim
  have hbn : ¬ (b = '\n') := fun hx => hbw (by rw [hx]; decide)
  rw [show List.dropWhile (fun x => x = '\n') ('\n' :: '\n' :: b :: B') =
        List.dropWhile (fun x => x = '\n') (b :: B') from by
      rw [List.dropWhile_cons, if_pos (by simp), List.dropWhile_cons, if_pos (by simp)]]
  rw [List.dropWhile_cons, if_neg (by simpa using hbn)]

/-! ## Claim C1: parse dispatch lemma -/

theorem parse_ticket_eq (yamlDec : List Char → Option Frontmatter) (content C : List Char)
    (k : Nat) (meta : Frontmatter) (tb : List Char × List Char)
    (h1 : trimC content = C)
    (h2 : ("---".data).isPrefixOf C = true)
    (h3 : findSubstr (C.drop 3) ("\n---".data) = some k)
    (h4 : yamlDec (trimC ((C.drop 3).take k)) = some meta)
    (h5 : k + 4 < (C.drop 3).length)
    (h6 : extract_title (trimC ((C.drop 3).drop (k + 4))) = tb) :
    parse_ticket yamlDec content = some ⟨meta, String.mk tb.1, String.mk tb.2⟩ := by
  simp only [parse_ticket, h1, h2, if_true, h3, h4, if_pos h5, h6]

/-! ## Claim C1: assembly helpers -/

theorem trimC_concat_nl (Y₀ : List Char) : trimC (Y₀ ++ ['\n']) = trimC Y₀ := by
  unfold trimC
  rw [trimR_concat_ws (by decide)]

theorem trimC_hash {Z Z₀ : List Char} {cz : Char} (hz : Z = Z₀ ++ [cz])
    (hcz : ¬ cz.isWhitespace = true) : trimC ('#' :: ' ' :: Z) = '#' :: ' ' :: Z := by
  subst hz
  have h := trimC_core (a := '#') (c := cz) (by decide) hcz (' ' :: Z₀) [] (by simp)
  simpa using h

theorem trimL_dash (Q : List Char) : trimL ("---\n".data ++ Q) = "---\n".data ++ Q := by
  show trimL ('-' :: ('-' :: '-' :: '\n' :: Q)) = '-' :: ('-' :: '-' :: '\n' :: Q)
  exact trimL_cons_of_not_ws (by decide) _

theorem isPrefixOf_three_dash (X : List Char) :
    ("---".data).isPrefixOf ('-' :: '-' :: '-' :: X) = true := by
  show (['-', '-', '-'] : List Char).isPrefixOf ('-' :: '-' :: '-' :: X) = true
  simp [List.isPrefixOf]

/-! ## Claim C1: the round-trip theorem -/

/-- C1: for every valid ticket — nonempty trimmed newline-free title,
whitespace-normalised body — and every frontmatter codec behaving like the
`serde_yaml` collaborator on this ticket's metadata (nonempty
newline-terminated encoding with no premature closing delimiter, decoded
back to the same metadata), parsing the serialized document yields a ticket
equal to the original in all fields: the whole frontmatter (id, status,
deps, created, updated, closed, type, priority, assignee, parent, tags),
the title, and the body. -/
theorem c1_roundtrip (yamlEnc : Frontmatter → List Char)
    (yamlDec : List Char → Option Frontmatter) (t : Ticket)
    (hYne : yamlEnc t.meta ≠ [])
    (hYlast : (yamlEnc t.meta).getLast? = some '\n')
    (hYno : ∀ i, i < (yamlEnc t.meta).length →
      ("\n---".data).isPrefixOf ((('\n' :: yamlEnc t.meta) ++ "---".data).drop i) = false)
    (hDec : yamlDec (trimC (yamlEnc t.meta)) = some t.meta)
    (hTne : t.title.data ≠ [])
    (hTtrim : trimC t.title.data = t.title.data)
    (hTnl : '\n' ∉ t.title.data)
    (hBtrim : trimC t.body.data = t.body.data) :
    parse_ticket yamlDec (serialize_ticket yamlEnc t) = some t := by
  obtain ⟨m, ⟨tid⟩, ⟨bod⟩⟩ := t
  dsimp only at hYne hYlast hYno hDec hTne hTtrim hTnl hBtrim
  obtain ⟨T₀, c, hTc⟩ : ∃ T₀ c, tid = T₀ ++ [c] := by
    rcases List.eq_nil_or_concat tid with h0 | ⟨T₀, c, hc⟩
    · exact absurd h0 hTne
    · exact ⟨T₀, c, by simpa [List.concat_eq_append] using hc⟩
  have hcw : ¬ c.isWhitespace = true := concat_last_not_ws (hTc ▸ hTtrim)
  obtain ⟨Y₀, hY0⟩ := List.getLast?_eq_some_iff.mp hYlast
  have htake : ∀ Z : List Char,
      (('\n' :: yamlEnc m) ++ Z).take ((yamlEnc m).length) = '\n' :: Y₀ := by
    intro Z
    have hg : ('\n' :: yamlEnc m) ++ Z = ('\n' :: Y₀) ++ (['\n'] ++ Z) := by
      rw [hY0]; simp
    rw [hg]
    exact List.take_left' (by rw [hY0]; simp)
  have hyaml : trimC ('\n' :: Y₀) = trimC (yamlEnc m) := by
    rw [trimC_cons_ws (by decide), hY0, trimC_concat_nl]
  by_cases hB : bod = []
  · subst hB
    have hser : serialize_ticket yamlEnc ⟨m, ⟨tid⟩, ⟨[]⟩⟩ =
        "---\n".data ++ (yamlEnc m ++ ("---\n\n# ".data ++ (tid ++ ['\n']))) := by
      simp only [serialize_ticket]
      rw [if_neg (by simp)]
      simp [List.append_assoc]
    rw [hser]
    have h1 : trimC ("---\n".data ++ (yamlEnc m ++ ("---\n\n# ".data ++ (tid ++ ['\n']))))
        = "---\n".data ++ (yamlEnc m ++ ("---\n\n# ".data ++ tid)) := by
      have hg : "---\n".data ++ (yamlEnc m ++ ("---\n\n# ".data ++ (tid ++ ['\n']))) =
          (("---\n".data ++ (yamlEnc m ++ ("---\n\n# ".data ++ T₀))) ++ [c]) ++ ['\n'] := by
        rw [hTc]; simp [List.append_assoc]
      rw [hg]
      unfold trimC
      rw [trimR_concat_ws (by decide), trimR_concat_not_ws hcw]
      rw [List.append_assoc]
      rw [show trimL ("---\n".data ++ ((yamlEnc m ++ ("---\n\n# ".data ++ T₀)) ++ [c]))
            = "---\n".data ++ ((yamlEnc m ++ ("---\n\n# ".data ++ T₀)) ++ [c]) from
          trimL_dash _]
      rw [hTc]
      simp [List.append_assoc]
    have h2 : ("---".data).isPrefixOf
        ("---\n".data ++ (yamlEnc m ++ ("---\n\n# ".data ++ tid))) = true :=
      isPrefixOf_three_dash _
    have h3 : findSubstr
        (("---\n".data ++ (yamlEnc m ++ ("---\n\n# ".data ++ tid))).drop 3)
        ("\n---".data) = some ((yamlEnc m).length) := by
      show findSubstr
        (('\n' :: yamlEnc m) ++ ("---".data ++ (['\n', '\n', '#', ' '] ++ tid)))
        ("\n---".data) = some ((yamlEnc m).length)
      exact findSubstr_delim _ _ hYlast hYno
    have h4 : yamlDec (trimC
        ((("---\n".data ++ (yamlEnc m ++ ("---\n\n# ".data ++ tid))).drop 3).take
          ((yamlEnc m).length))) = some m := by
      have ht : (("---\n".data ++ (yamlEnc m ++ ("---\n\n# ".data ++ tid))).drop 3).take
          ((yamlEnc m).length) = '\n' :: Y₀ := by
        show (('\n' :: yamlEnc m) ++ ("---\n\n# ".data ++ tid)).take ((yamlEnc m).length)
          = '\n' :: Y₀
        exact htake _
      rw [ht, hyaml, hDec]
    have h5 : (yamlEnc m).length + 4 <
        (("---\n".data ++ (yamlEnc m ++ ("---\n\n# ".data ++ tid))).drop 3).length := by
      have hl : (("---\n".data ++ (yamlEnc m ++ ("---\n\n# ".data ++ tid))).drop 3).length
          = 1 + ((yamlEnc m).length + (7 + tid.length)) := by
        show ('\n' :: (yamlEnc m ++ ("---\n\n# ".data ++ tid))).length = _
        rw [List.length_cons, List.length_append, List.length_append]
        rw [show ("---\n\n# ".data).length = 7 from rfl]
        omega
      rw [hl]
      omega
    have h6 : extract_title (trimC
        ((("---\n".data ++ (yamlEnc m ++ ("---\n\n# ".data ++ tid))).drop 3).drop
          ((yamlEnc m).length + 4))) = (tid, []) := by
      have hx : ("---\n".data ++ (yamlEnc m ++ ("---\n\n# ".data ++ tid))).drop 3 =
          (('\n' :: yamlEnc m) ++ "---".data) ++ ('\n' :: '\n' :: '#' :: ' ' :: tid) := by
        show '\n' :: (yamlEnc m ++ ("---\n\n# ".data ++ tid)) = _
        rw [show "---\n\n# ".data = ['-', '-', '-', '\n', '\n', '#', ' '] from rfl,
          show "---".data = ['-', '-', '-'] from rfl]
        simp [List.append_assoc]
      rw [hx, List.drop_left' (by
        rw [List.length_append, show ("---".data).length = 3 from rfl]
        simp)]
      rw [trimC_cons_ws (by decide), trimC_cons_ws (by decide)]
      rw [trimC_hash hTc hcw]
      exact extract_title_a tid hTne hTtrim hTnl
    exact parse_ticket_eq yamlDec _ _ _ m (tid, []) h1 h2 h3 h4 h5 h6
  · obtain ⟨B₀, cb, hBc⟩ : ∃ B₀ cb, bod = B₀ ++ [cb] := by
      rcases List.eq_nil_or_concat bod with h0 | ⟨B₀, cb, hc⟩
      · exact absurd h0 hB
      · exact ⟨B₀, cb, by simpa [List.concat_eq_append] using hc⟩
    have hcbw : ¬ cb.isWhitespace = true := concat_last_not_ws (hBc ▸ hBtrim)
    have hlastb : bod.getLast? = some cb := by
      rw [hBc]
      exact List.getLast?_concat _
    have hser : serialize_ticket yamlEnc ⟨m, ⟨tid⟩, ⟨bod⟩⟩ =
        ("---\n".data ++ (yamlEnc m ++ ("---\n\n# ".data ++ (tid ++ ['\n'])))) ++
          (['\n'] ++ (bod ++ ['\n'])) := by
      simp only [serialize_ticket]
      rw [if_pos (by simpa using hB)]
      rw [if_neg (by
        rw [hlastb]
        intro hx
        have hcb : cb = '\n' := by simpa using hx
        rw [hcb] at hcbw
        exact hcbw (by decide))]
      simp [List.append_assoc]
    rw [hser]
    have h1 : trimC (("---\n".data ++ (yamlEnc m ++ ("---\n\n# ".data ++ (tid ++ ['\n'])))) ++
          (['\n'] ++ (bod ++ ['\n'])))
        = "---\n".data ++ (yamlEnc m ++ ("---\n\n# ".data ++ (tid ++ ('\n' :: '\n' :: bod))))
        := by
      have hg : ("---\n".data ++ (yamlEnc m ++ ("---\n\n# ".data ++ (tid ++ ['\n'])))) ++
            (['\n'] ++ (bod ++ ['\n'])) =
          (("---\n".data ++
            (yamlEnc m ++ ("---\n\n# ".data ++ (tid ++ ('\n' :: '\n' :: B₀))))) ++ [cb]) ++
            ['\n'] := by
        rw [hBc]; simp [List.append_assoc]
      rw [hg]
      unfold trimC
      rw [trimR_concat_ws (by decide), trimR_concat_not_ws hcbw]
      rw [List.append_assoc]
      rw [show trimL ("---\n".data ++
            ((yamlEnc m ++ ("---\n\n# ".data ++ (tid ++ ('\n' :: '\n' :: B₀)))) ++ [cb]))
            = "---\n".data ++
            ((yamlEnc m ++ ("---\n\n# ".data ++ (tid ++ ('\n' :: '\n' :: B₀)))) ++ [cb]) from
          trimL_dash _]
      rw [hBc]
      simp [List.append_assoc]
    have h2 : ("---".data).isPrefixOf
        ("---\n".data ++ (yamlEnc m ++ ("---\n\n# ".data ++ (tid ++ ('\n' :: '\n' :: bod)))))
          = true :=
      isPrefixOf_three_dash _
    have h3 : findSubstr
        (("---\n".data ++
          (yamlEnc m ++ ("---\n\n# ".data ++ (tid ++ ('\n' :: '\n' :: bod))))).drop 3)
        ("\n---".data) = some ((yamlEnc m).length) := by
      show findSubstr
        (('\n' :: yamlEnc m) ++
          ("---".data ++ (['\n', '\n', '#', ' '] ++ (tid ++ ('\n' :: '\n' :: bod)))))
        ("\n---".data) = some ((yamlEnc m).length)
      exact findSubstr_delim _ _ hYlast hYno
    have h4 : yamlDec (trimC
        ((("---\n".data ++
          (yamlEnc m ++ ("---\n\n# ".data ++ (tid ++ ('\n' :: '\n' :: bod))))).drop 3).take
          ((yamlEnc m).length))) = some m := by
      have ht : (("---\n".data ++
          (yamlEnc m ++ ("---\n\n# ".data ++ (tid ++ ('\n' :: '\n' :: bod))))).drop 3).take
          ((yamlEnc m).length) = '\n' :: Y₀ := by
        show (('\n' :: yamlEnc m) ++
          ("---\n\n# ".data ++ (tid ++ ('\n' :: '\n' :: bod)))).take ((yamlEnc m).length)
          = '\n' :: Y₀
        exact htake _
      rw [ht, hyaml, hDec]
    have h5 : (yamlEnc m).length + 4 <
        (("---\n".data ++
          (yamlEnc m ++ ("---\n\n# ".data ++ (tid ++ ('\n' :: '\n' :: bod))))).drop 3).length
          := by
      have hl : (("---\n".data ++
          (yamlEnc m ++ ("---\n\n# ".data ++ (tid ++ ('\n' :: '\n' :: bod))))).drop 3).length
          = 1 + ((yamlEnc m).length + (7 + (tid.length + (2 + bod.length)))) := by
        show ('\n' :: (yamlEnc m ++
          ("---\n\n# ".data ++ (tid ++ ('\n' :: '\n' :: bod))))).length = _
        rw [List.length_cons, List.length_append, List.length_append, List.length_append]
        rw [show ("---\n\n# ".data).length = 7 from rfl]
        simp
        omega
      rw [hl]
      omega
    have h6 : extract_title (trimC
        ((("---\n".data ++
          (yamlEnc m ++ ("---\n\n# ".data ++ (tid ++ ('\n' :: '\n' :: bod))))).drop 3).drop
          ((yamlEnc m).length + 4))) = (tid, bod) := by
      have hx : ("---\n".data ++
          (yamlEnc m ++ ("---\n\n# ".data ++ (tid ++ ('\n' :: '\n' :: bod))))).drop 3 =
          (('\n' :: yamlEnc m) ++ "---".data) ++
            ('\n' :: '\n' :: '#' :: ' ' :: (tid ++ ('\n' :: '\n' :: bod))) := by
        show '\n' :: (yamlEnc m ++ ("---\n\n# ".data ++ (tid ++ ('\n' :: '\n' :: bod)))) = _
        rw [show "---\n\n# ".data = ['-', '-', '-', '\n', '\n', '#', ' '] from rfl,
          show "---".data = ['-', '-', '-'] from rfl]
        simp [List.append_assoc]
      rw [hx, List.drop_left' (by
        rw [List.length_append, show ("---".data).length = 3 from rfl]
        simp)]
      rw [trimC_cons_ws (by decide), trimC_cons_ws (by decide)]
      have hzb : tid ++ ('\n' :: '\n' :: bod) = (tid ++ ('\n' :: '\n' :: B₀)) ++ [cb] := by
        rw [hBc]; simp
      rw [trimC_hash hzb hcbw]
      show extract_title (('#' :: ' ' :: tid) ++ ('\n' :: '\n' :: bod)) = (tid, bod)
      exact extract_title_b tid bod hTne hTtrim hTnl hB hBtrim
    exact parse_ticket_eq yamlDec _ _ _ m (tid, bod) h1 h2 h3 h4 h5 h6

/-- C1 witness: the round-trip theorem applied to a concrete ticket with a
concrete frontmatter codec, all hypotheses discharged by evaluation. -/
theorem c1_roundtrip_witness :
    wDec (trimC (wEnc wTicket.meta)) = some wTicket.meta ∧
      parse_ticket wDec (serialize_ticket wEnc wTicket) = some wTicket :=
  ⟨by decide,
   c1_roundtrip wEnc wDec wTicket (by decide) (by decide) (by decide) (by decide)
     (by decide) (by decide) (by decide) (by decide)⟩

end Tk
